import Mathlib

/-!
Shallow embedding of the card image dataset manager.

* src/app.py  — curation engine: session state, edit operations, export.
* src/app2.py — reclassification engine: filename parsing, front/back
  pairing, classify/rename.

File-system effects are made explicit: `os.path.exists` becomes a predicate
`String → Bool` passed in, created directories and copied files are recorded
in the result, and a directory's contents are a `Finset String` of filenames
threaded through the rename operation.
-/

namespace CardManager

/-- A dynamic value as stored in an item's `grade` field: a number, a string,
or absent (`item.get('grade')` returning `None`).  Python numeric values are
modelled as rationals. -/
inductive PyVal where
  | vNone : PyVal
  | vNum : ℚ → PyVal
  | vStr : String → PyVal
  deriving DecidableEq

/-- Python truthiness of a grade value (`not item.get('grade')`): `None`,
`0`/`0.0` and `""` are falsy, everything else truthy. -/
def PyVal.truthy : PyVal → Bool
  | .vNone => false
  | .vNum q => decide (q ≠ 0)
  | .vStr s => decide (s ≠ "")

/-- Truthiness of the `grading_company` field (a string or absent, spec §6):
absent and `""` are falsy. -/
def companyTruthy : Option String → Bool
  | none => false
  | some s => decide (s ≠ "")

/-- One dataset record of src/app.py.  `images` is the ordered image list
(position 0 = front, 1 = back); the remaining fields are pass-through
metadata never interpreted by the curation logic. -/
structure Item where
  images : List String
  grade : PyVal
  grading_company : Option String
  listing_id : Option String
  listing_url : Option String
  title : Option String
  price : Option ℚ
  deriving DecidableEq

/-- The Streamlit session state of src/app.py (`st.session_state`). -/
structure Session where
  dataset : List Item
  base_path : String
  data_loaded : Bool
  current_index : Nat
  modified_items : Finset Nat
  deleted_items : Finset Nat
  deriving DecidableEq

/-- A parsed input document: `json.load` either raises (malformed input) or
yields a single object or a list of objects. -/
inductive LoadDoc where
  | malformed : LoadDoc
  | singleObj : Item → LoadDoc
  | listObj : List Item → LoadDoc

/-- src/app.py `load_dataset`: `json.load` runs before any session-state
assignment, so a parse failure propagates to the caller with every session
field untouched; on success a single object is wrapped into a one-element
list and every session field is (re)initialised. -/
def load_dataset (s : Session) (doc : LoadDoc) (base_path : String) : Session :=
  match doc with
  | .malformed => s
  | .singleObj item =>
      { dataset := [item], base_path := base_path, data_loaded := true,
        current_index := 0, modified_items := ∅, deleted_items := ∅ }
  | .listObj items =>
      { dataset := items, base_path := base_path, data_loaded := true,
        current_index := 0, modified_items := ∅, deleted_items := ∅ }

/-- `os.path.join(st.session_state.base_path, image_rel_path)` for the
relative paths the dataset carries. -/
def get_full_image_path (base_path image_rel_path : String) : String :=
  base_path ++ "/" ++ image_rel_path

/-- src/app.py `delete_listing`: add the index to the deleted set, drop it
from the modified set (`remove` guarded by a membership test, so a no-op when
absent), and advance the cursor clamped at the last index. -/
def delete_listing (s : Session) (item_index : Nat) : Session :=
  { s with
    deleted_items := insert item_index s.deleted_items,
    modified_items := s.modified_items.erase item_index,
    current_index :=
      if s.current_index < s.dataset.length - 1 then s.current_index + 1
      else s.current_index }

/-- src/app.py `undelete_listing`: remove the index from the deleted set when
present; nothing else changes. -/
def undelete_listing (s : Session) (item_index : Nat) : Session :=
  { s with deleted_items := s.deleted_items.erase item_index }

/-- src/app.py `update_metadata`: set grade and company, mark modified,
advance the cursor clamped at the last index. -/
def update_metadata (s : Session) (item_index : Nat) (grade : PyVal)
    (grading_company : Option String) : Session :=
  match s.dataset[item_index]? with
  | none => s
  | some item =>
      { s with
        dataset := s.dataset.set item_index
          { item with grade := grade, grading_company := grading_company },
        modified_items := insert item_index s.modified_items,
        current_index :=
          if s.current_index < s.dataset.length - 1 then s.current_index + 1
          else s.current_index }

/-- The simultaneous assignment
`l[i], l[j] = l[j], l[i]`: both right-hand values are read first, then
written in order.  Out-of-range reads leave the list unchanged (the callers
guard the indices). -/
def listSwap (l : List α) (i j : Nat) : List α :=
  match l[i]?, l[j]? with
  | some a, some b => (l.set i b).set j a
  | _, _ => l

/-- src/app.py `swap_images`: `st.session_state.dataset[item_index]` raises
`IndexError` when the item index is out of range (modelled as `none`);
otherwise the two positions are exchanged and the item marked modified only
when both positions are in range, else the call is a no-op. -/
def swap_images (s : Session) (item_index index1 index2 : Nat) : Option Session :=
  match s.dataset[item_index]? with
  | none => none
  | some item =>
      if index1 < item.images.length ∧ index2 < item.images.length then
        some { s with
          dataset := s.dataset.set item_index
            { item with images := listSwap item.images index1 index2 },
          modified_items := insert item_index s.modified_items }
      else some s

/-- `pathlib.Path(p).suffix`: the extension of the final path component
(the characters after the last `/`), including the dot; empty when there is
no dot, the only dot is leading (hidden files) or the dot is final. -/
def pathSuffix (p : String) : String :=
  let nm := (p.toList.reverse.takeWhile (fun c => c ≠ '/')).reverse
  match nm.reverse.findIdx? (fun c => c = '.') with
  | none => ""
  | some rj =>
      let i := nm.length - 1 - rj
      if 0 < i ∧ i < nm.length - 1 then String.mk (nm.drop i) else ""

/-- `item.get('listing_id', 'unknown')` as rendered into the export log. -/
def listingIdStr (item : Item) : String := item.listing_id.getD "unknown"

/-- Python `str()` of a grade value as interpolated into an exported
filename.  Integers render exactly; the decimal rendering of non-integral
rationals is abstracted (no claim depends on the text of a fractional
grade). -/
def PyVal.pyStr : PyVal → String
  | .vNone => "None"
  | .vNum q => if q.den = 1 then toString q.num else toString q.num ++ "." ++ toString q.den
  | .vStr s => s

/-- One item's outcome inside `export_dataset`'s loop: whether it was
exported, its log line, the directories created and the (source, destination)
copies performed while processing it. -/
structure StepResult where
  exported : Bool
  logEntry : String
  dirs : List String
  copies : List (String × String)
  deriving DecidableEq

/-- The `for idx, image_rel_path in enumerate(item['images'])` copy loop of
`export_dataset`: each source is existence-checked then copied to
`companyDir/{grade}_{uid}_{front|back}{ext}`; the first missing source raises
`FileNotFoundError`, stopping the loop and keeping the copies already made
(no rollback).  Returns the copies performed and the error message, if any. -/
def copy_loop (base_path company_dir uid gradeStr : String) (fe : String → Bool) :
    Nat → List String → List (String × String) × Option String
  | _, [] => ([], none)
  | j, image_rel_path :: rest =>
      let source_path := get_full_image_path base_path image_rel_path
      if fe source_path then
        let ext := pathSuffix source_path
        let image_type := if j = 0 then "front" else "back"
        let new_filename := gradeStr ++ "_" ++ uid ++ "_" ++ image_type ++ ext
        let dest_path := company_dir ++ "/" ++ new_filename
        let rec_rest := copy_loop base_path company_dir uid gradeStr fe (j + 1) rest
        ((source_path, dest_path) :: rec_rest.1, rec_rest.2)
      else ([], some ("Image not found: " ++ source_path))

/-- The body of `export_dataset`'s per-item loop (src/app.py lines 104-152):
skip checks in source order (deleted, grade/company truthiness, image
count), then the company directory is created — recorded in `dirs` —
*before* any source-existence check, then the copy loop runs.  `fe` models
`os.path.exists`; `uid` is the `str(uuid.uuid4())[:8]` value drawn for this
item. -/
def export_step (s : Session) (output_dir : String) (fe : String → Bool)
    (uid : String) (idx : Nat) (item : Item) : StepResult :=
  if idx ∈ s.deleted_items then
    ⟨false, "Skipped: " ++ listingIdStr item ++ " - Marked for deletion", [], []⟩
  else if item.grade.truthy = false ∨ companyTruthy item.grading_company = false then
    ⟨false, "Skipped: " ++ listingIdStr item ++ " - Missing grade or grading company",
      [], []⟩
  else if item.images.length ≠ 2 then
    ⟨false, "Skipped: " ++ listingIdStr item ++ " - Need exactly 2 images (front/back)",
      [], []⟩
  else
    let company_dir := output_dir ++ "/" ++ item.grading_company.getD ""
    match copy_loop s.base_path company_dir uid item.grade.pyStr fe 0 item.images with
    | (cps, none) =>
        ⟨true, "Exported: " ++ listingIdStr item ++ " as " ++ uid, [company_dir], cps⟩
    | (cps, some emsg) =>
        ⟨false, "Error exporting " ++ listingIdStr item ++ ": " ++ emsg,
          [company_dir], cps⟩

/-- Whether the export loop exports the item at `idx` (it is counted in
`exported_count` and logged `Exported: ...`). -/
def item_exported (s : Session) (output_dir : String) (fe : String → Bool)
    (uid : String) (idx : Nat) (item : Item) : Bool :=
  (export_step s output_dir fe uid idx item).exported

/-- The whole result of `export_dataset`: the returned counts and log, plus
the recorded file-system effects and the metadata snapshot written to
`outputDir/dataset_metadata.json`. -/
structure ExportOutcome where
  exported_count : Nat
  skipped_count : Nat
  export_log : List String
  createdDirs : List String
  copiedFiles : List (String × String)
  metadataSnapshot : List Item
  deriving DecidableEq

/-- The `for idx, item in enumerate(st.session_state.dataset)` loop,
accumulating counts, log lines and file-system effects in order. -/
def export_loop (s : Session) (output_dir : String) (fe : String → Bool)
    (uids : Nat → String) :
    Nat → List Item → Nat × Nat × List String × List String × List (String × String)
  | _, [] => (0, 0, [], [], [])
  | idx, item :: rest =>
      let r := export_step s output_dir fe (uids idx) idx item
      let t := export_loop s output_dir fe uids (idx + 1) rest
      (t.1 + (if r.exported then 1 else 0),
       t.2.1 + (if r.exported then 0 else 1),
       r.logEntry :: t.2.2.1,
       r.dirs ++ t.2.2.2.1,
       r.copies ++ t.2.2.2.2)

/-- src/app.py `export_dataset`: create the output directory, process every
item in index order, then dump the *entire* in-memory dataset —
post-edits, unfiltered, deleted items included — to
`outputDir/dataset_metadata.json` (the `metadataSnapshot` field).  `uids`
supplies the random 8-character identifier drawn for each item index. -/
def export_dataset (s : Session) (output_dir : String) (fe : String → Bool)
    (uids : Nat → String) : ExportOutcome :=
  let t := export_loop s output_dir fe uids 0 s.dataset
  { exported_count := t.1,
    skipped_count := t.2.1,
    export_log := t.2.2.1,
    createdDirs := output_dir :: t.2.2.2.1,
    copiedFiles := t.2.2.2.2,
    metadataSnapshot := s.dataset }

/-! ### Reclassification engine (src/app2.py) -/

/-- The character class `[\d.]` of the filename regex (ASCII digits and the
decimal point). -/
def isDigitOrDot (c : Char) : Bool := c.isDigit || c = '.'

/-- The character class `[a-f0-9]` under `re.IGNORECASE` (the flag applies to
the whole pattern, so uppercase hex letters match as well). -/
def isHexCI (c : Char) : Bool :=
  c.isDigit || ('a' ≤ c && c ≤ 'f') || ('A' ≤ c && c ≤ 'F')

/-- The character class `\w` (ASCII word characters: letters, digits,
underscore). -/
def isWordChar (c : Char) : Bool := c.isAlphanum || c = '_'

/-- The alternative `(front|back)` under `re.IGNORECASE`, followed by the
code's `.lower()` on the capture: returns the lowercased side token and the
rest of the input. -/
def sideTok (cs : List Char) : Option (String × List Char) :=
  if (cs.take 5).map Char.toLower = ['f', 'r', 'o', 'n', 't'] then
    some ("front", cs.drop 5)
  else if (cs.take 4).map Char.toLower = ['b', 'a', 'c', 'k'] then
    some ("back", cs.drop 4)
  else none

/-- The regex `^([\d.]+)_([a-f0-9]+)_(front|back)\.(\w+)$` with
`re.IGNORECASE`, as a deterministic matcher on the character list.  Each
character class excludes `_` (and `\w` excludes `.`), so the greedy
backtracking match is equivalent to taking maximal runs and demanding the
literal separators. -/
def parseChars (cs : List Char) : Option (List Char × List Char × String × List Char) :=
  let g := cs.takeWhile isDigitOrDot
  match cs.dropWhile isDigitOrDot with
  | '_' :: r1 =>
      if g = [] then none
      else
        let u := r1.takeWhile isHexCI
        match r1.dropWhile isHexCI with
        | '_' :: r2 =>
            if u = [] then none
            else
              match sideTok r2 with
              | some (sd, r3) =>
                  match r3 with
                  | '.' :: e =>
                      if e ≠ [] ∧ e.all isWordChar then some (g, u, sd, e) else none
                  | _ => none
              | none => none
        | _ => none
  | _ => none

/-- src/app2.py `parse_filename`: match the filename against
`^([\d.]+)_([a-f0-9]+)_(front|back)\.(\w+)$` (IGNORECASE); on success return
(grade, unique_id, side.lower(), extension), else `none` (the code's
`(None, None, None, None)`). -/
def parse_filename (filename : String) : Option (String × String × String × String) :=
  match parseChars filename.toList with
  | some (g, u, sd, e) => some (String.mk g, String.mk u, sd, String.mk e)
  | none => none

/-- The numeric value of a digits-and-dots string, as `float()` reads it:
integer part plus fractional part over the matching power of ten. -/
def ratOfDigitsDots (cs : List Char) : ℚ :=
  let ip := cs.takeWhile (fun c => c ≠ '.')
  let fp := (cs.dropWhile (fun c => c ≠ '.')).drop 1
  let ipv : ℕ := ip.foldl (fun n c => 10 * n + (c.toNat - 48)) 0
  let fpv : ℕ := fp.foldl (fun n c => 10 * n + (c.toNat - 48)) 0
  mkRat (ipv * 10 ^ fp.length + fpv) (10 ^ fp.length)

/-- `float(s)` for the strings the grade capture group `[\d.]+` can produce:
it succeeds exactly when there is at least one digit and at most one dot
(general float syntax — signs, exponents — cannot occur in a `[\d.]+`
capture). -/
def parseGradeFloat (s : String) : Option ℚ :=
  let cs := s.toList
  if cs ≠ [] ∧ cs.all isDigitOrDot ∧ cs.count '.' ≤ 1 ∧ cs.any Char.isDigit then
    some (ratOfDigitsDots cs)
  else none

/-- src/app2.py `is_grade_10`: `float(grade_str) == 10.0`, `False` when the
conversion raises. -/
def is_grade_10 (grade_str : String) : Bool :=
  match parseGradeFloat grade_str with
  | some q => decide (q = 10)
  | none => false

/-- One value of `image_dict` in `load_image_directory`: created with the
grade, unique id and extension of the file that first introduced the unique
id, with the `front`/`back` slots starting as `None` and filled with
filenames as sides are seen. -/
structure Entry where
  grade : String
  unique_id : String
  extension : String
  front : Option String
  back : Option String
  deriving DecidableEq

/-- `image_dict[unique_id][side] = file.name` (the side is already
lowercased by `parse_filename`). -/
def setSide (ent : Entry) (sd name : String) : Entry :=
  if sd = "front" then { ent with front := some name }
  else if sd = "back" then { ent with back := some name }
  else ent

/-- Dictionary lookup on the insertion-ordered association list modelling
`image_dict`. -/
def dlookup : List (String × Entry) → String → Option Entry
  | [], _ => none
  | (k, v) :: rest, key => if k = key then some v else dlookup rest key

/-- In-place value update for a key of `image_dict` (insertion order
preserved; a missing key leaves the list unchanged). -/
def dupdate : List (String × Entry) → String → Entry → List (String × Entry)
  | [], _, _ => []
  | (k, v) :: rest, key, e =>
      if k = key then (k, e) :: rest else (k, v) :: dupdate rest key e

/-- `.lower()` on a string, character by character. -/
def lowerStr (s : String) : String := String.mk (s.toList.map Char.toLower)

/-- The per-file admission test of `load_image_directory`: the extension
filter `file.suffix.lower() in ['.jpg', '.jpeg', '.png']`, the filename
parse, the truthiness of the captures (`if grade and unique_id and side`)
and the grade-10 filter. -/
def acceptFile (name : String) : Option (String × String × String × String) :=
  if lowerStr (pathSuffix name) ∈ [".jpg", ".jpeg", ".png"] then
    match parse_filename name with
    | some (g, u, sd, e) =>
        if g ≠ "" ∧ u ≠ "" ∧ sd ≠ "" ∧ is_grade_10 g then some (g, u, sd, e)
        else none
    | none => none
  else none

/-- Processing one scanned file into `image_dict`: a rejected file leaves the
dictionary unchanged; an accepted one either creates the unique id's entry —
recording this file's grade and extension — or only fills the side slot of
the existing entry (the stored extension is *not* updated). -/
def insertFile (d : List (String × Entry)) (name : String) : List (String × Entry) :=
  match acceptFile name with
  | none => d
  | some (g, u, sd, e) =>
      match dlookup d u with
      | none => d ++ [(u, setSide ⟨g, u, e, none, none⟩ sd name)]
      | some ent => dupdate d u (setSide ent sd name)

/-- A front/back pair retained by the scan (`card_pairs` element): both
filenames present. -/
structure CardPair where
  grade : String
  unique_id : String
  extension : String
  front : String
  back : String
  deriving DecidableEq

/-- The `for unique_id, data in image_dict.items()` loop: keep the groups
with both a front and a back filename (`if data['front'] and data['back']`;
filenames produced by a directory listing are never empty). -/
def collectPairs : List (String × Entry) → List CardPair
  | [] => []
  | (_, ent) :: rest =>
      match ent.front, ent.back with
      | some f, some b =>
          ⟨ent.grade, ent.unique_id, ent.extension, f, b⟩ :: collectPairs rest
      | _, _ => collectPairs rest

/-- Stable insertion into a list sorted by unique id (an element is placed
before the first element whose key is not smaller). -/
def insertSorted (p : CardPair) : List CardPair → List CardPair
  | [] => [p]
  | q :: rest =>
      if p.unique_id ≤ q.unique_id then p :: q :: rest else q :: insertSorted p rest

/-- `card_pairs.sort(key=lambda x: x['unique_id'])`: Python's stable sort by
unique id, modelled as stable insertion sort. -/
def sortPairs : List CardPair → List CardPair
  | [] => []
  | p :: rest => insertSorted p (sortPairs rest)

/-- src/app2.py `load_image_directory`, pure core: fold the scanned
filenames (in directory iteration order) into `image_dict`, keep the groups
with both sides present, and sort by unique id. -/
def load_image_directory (files : List String) : List CardPair :=
  sortPairs (collectPairs (files.foldl insertFile []))

/-- The first scanned file that passes `load_image_directory`'s admission
filters and carries the given unique id, with its parse result.  Used to
state which side's extension the dictionary slot records. -/
def firstAccepted : List String → String → Option (String × String × String × String)
  | [], _ => none
  | f :: rest, uid =>
      match acceptFile f with
      | some (g, u, sd, e) =>
          if u = uid then some (g, u, sd, e) else firstAccepted rest uid
      | none => firstAccepted rest uid

/-- Lowercase hex characters, the spec's stated class for `UNIQUEID`. -/
def isLowerHex (c : Char) : Bool := c.isDigit || ('a' ≤ c && c ≤ 'f')

/-- Modelled from the spec (§4.3): the filename grammar
`GRADE_UNIQUEID_SIDE.EXT` where `GRADE` is one or more digits optionally
with a single decimal point, `UNIQUEID` is one or more lowercase hex
characters, `SIDE` is exactly `front` or `back` (case-insensitive), and
`EXT` is the file's extension letters.  A deterministic checker: each
component's characters exclude the `_` separator, so the decomposition is
forced. -/
def specMatch (filename : String) : Bool :=
  let cs := filename.toList
  let g := cs.takeWhile isDigitOrDot
  match cs.dropWhile isDigitOrDot with
  | '_' :: r1 =>
      if g.any Char.isDigit ∧ g.count '.' ≤ 1 then
        let u := r1.takeWhile isLowerHex
        match r1.dropWhile isLowerHex with
        | '_' :: r2 =>
            if u = [] then false
            else
              match sideTok r2 with
              | some (_, '.' :: e) => decide (e ≠ []) && e.all Char.isAlpha
              | _ => false
        | _ => false
      else false
  | _ => false

/-- The language the filename regex actually accepts: `GRADE` is any
nonempty run of digits and dots (dots unrestricted), `UNIQUEID` any nonempty
run of hex characters of either case (`re.IGNORECASE` covers the
`[a-f0-9]` class), `SIDE` is `front`/`back` case-insensitively and `EXT` any
nonempty run of word characters. -/
def regexLang (filename : String) : Prop :=
  ∃ g u sd e : List Char,
    filename.toList = g ++ '_' :: (u ++ '_' :: (sd ++ '.' :: e)) ∧
    g ≠ [] ∧ (∀ c ∈ g, isDigitOrDot c = true) ∧
    u ≠ [] ∧ (∀ c ∈ u, isHexCI c = true) ∧
    (sd.map Char.toLower = ['f', 'r', 'o', 'n', 't'] ∨
      sd.map Char.toLower = ['b', 'a', 'c', 'k']) ∧
    e ≠ [] ∧ (∀ c ∈ e, isWordChar c = true)

/-- The session state of src/app2.py. -/
structure ClassifySession where
  card_pairs : List CardPair
  current_index : Nat
  classified_count : Nat
  source_dir : String
  deriving DecidableEq

/-- `Path.rename` within the source directory, on the directory's listing
(a set of filenames): fails when the source name is absent (the file
vanished); a present source is renamed, silently replacing an existing
destination entry (POSIX semantics). -/
def rename_file (fs : Finset String) (old new : String) : Option (Finset String) :=
  if old ∈ fs then some (insert new (fs.erase old)) else none

/-- src/app2.py `rename_card_pair`, acting on the pair at index `i` of
`card_pairs` (the caller passes the current card).  Inside the `try`: rename
the front file, rename the back file, and only then update the in-memory
pair, increment the classified counter and advance the cursor clamped at the
last index.  Any failure is caught, returning `False` with the session
unchanged — but renames already performed on disk are not undone.  Returns
(session, directory listing, success flag). -/
def rename_card_pair (s : ClassifySession) (i : Nat) (new_grade : String)
    (fs : Finset String) : ClassifySession × Finset String × Bool :=
  match s.card_pairs[i]? with
  | none => (s, fs, false)
  | some pair =>
      let new_front_name := new_grade ++ "_" ++ pair.unique_id ++ "_front." ++ pair.extension
      let new_back_name := new_grade ++ "_" ++ pair.unique_id ++ "_back." ++ pair.extension
      match rename_file fs pair.front new_front_name with
      | none => (s, fs, false)
      | some fs1 =>
          match rename_file fs1 pair.back new_back_name with
          | none => (s, fs1, false)
          | some fs2 =>
              ({ s with
                  card_pairs := s.card_pairs.set i
                    { pair with grade := new_grade, front := new_front_name,
                                back := new_back_name },
                  classified_count := s.classified_count + 1,
                  current_index :=
                    if s.current_index < s.card_pairs.length - 1 then
                      s.current_index + 1
                    else s.current_index },
               fs2, true)

/-! ### Concrete inputs used by witnesses and counterexamples -/

/-- An item whose grade is the number `0`: present ("set") but falsy. -/
def itemGradeZero : Item :=
  { images := ["a.jpg", "b.jpg"], grade := .vNum 0, grading_company := some "PSA",
    listing_id := some "L1", listing_url := none, title := none, price := none }

/-- A loaded session holding only `itemGradeZero`, nothing deleted. -/
def sessionGradeZero : Session :=
  { dataset := [itemGradeZero], base_path := "/base", data_loaded := true,
    current_index := 0, modified_items := ∅, deleted_items := ∅ }

/-- A fully eligible item: numeric grade 10, company set, two images. -/
def itemOk : Item :=
  { images := ["a.jpg", "b.jpg"], grade := .vNum 10, grading_company := some "PSA",
    listing_id := some "L2", listing_url := none, title := none, price := none }

/-- A loaded session holding only `itemOk`, nothing deleted. -/
def sessionOk : Session :=
  { dataset := [itemOk], base_path := "/base", data_loaded := true,
    current_index := 0, modified_items := ∅, deleted_items := ∅ }

/-- `os.path.exists` in a world where every path exists. -/
def allExist : String → Bool := fun _ => true

/-- `os.path.exists` in a world where no path exists. -/
def noneExist : String → Bool := fun _ => false

/-- A constant unique-id supply for concrete export runs. -/
def uidsEx : Nat → String := fun _ => "u0"

/-- A card pair whose files carry grade 10. -/
def pairEx : CardPair :=
  { grade := "10", unique_id := "ab12", extension := "jpg",
    front := "10_ab12_front.jpg", back := "10_ab12_back.jpg" }

/-- A classification session holding only `pairEx`. -/
def sessionEx : ClassifySession :=
  { card_pairs := [pairEx], current_index := 0, classified_count := 0,
    source_dir := "/imgs" }

/-- A directory listing in which the back file of `pairEx` has vanished. -/
def fsEx : Finset String := {"10_ab12_front.jpg"}

/-- A scan in which the front (seen first) is a `.jpg` and the back (seen
last) is a `.png`. -/
def filesMixedExt : List String := ["10_ab_front.jpg", "10_ab_back.png"]

/-- The pair `load_image_directory` builds from `filesMixedExt`. -/
def pairMixedExt : CardPair :=
  { grade := "10", unique_id := "ab", extension := "jpg",
    front := "10_ab_front.jpg", back := "10_ab_back.png" }

/-- `sessionOk` after one swap of image positions 0 and 1. -/
def sessionOkSwapOnce : Session :=
  { dataset := [{ itemOk with images := ["b.jpg", "a.jpg"] }], base_path := "/base",
    data_loaded := true, current_index := 0, modified_items := {0},
    deleted_items := ∅ }

/-- `sessionOk` after swapping image positions 0 and 1 twice. -/
def sessionOkSwapTwice : Session :=
  { dataset := [itemOk], base_path := "/base", data_loaded := true,
    current_index := 0, modified_items := {0}, deleted_items := ∅ }

/-! ## Theorems -/

/-- Writing back the value a position already holds is the identity. -/
theorem set_get_eq {α : Type _} (l : List α) (i : Nat) (a : α)
    (h : l[i]? = some a) : l.set i a = l := by
  induction l generalizing i with
  | nil => simp at h
  | cons x t ih =>
    cases i with
    | zero => simp at h; simp [List.set, h]
    | succ j => simp at h; simp [List.set, ih j h]

/-- The simultaneous swap preserves the list's length. -/
theorem listSwap_length {α : Type _} (l : List α) (i j : Nat) :
    (listSwap l i j).length = l.length := by
  rcases hi : l[i]? with _ | a <;> rcases hj : l[j]? with _ | b <;>
    simp [listSwap, hi, hj, List.length_set]

/-- The simultaneous swap is an involution, also at out-of-range positions
(where it is the identity). -/
theorem listSwap_involutive {α : Type _} (l : List α) (i j : Nat) :
    listSwap (listSwap l i j) i j = l := by
  rcases hi : l[i]? with _ | a
  · have h0 : listSwap l i j = l := by
      rcases hj : l[j]? with _ | b <;> simp [listSwap, hi, hj]
    rw [h0, h0]
  · rcases hj : l[j]? with _ | b
    · have h0 : listSwap l i j = l := by simp [listSwap, hi, hj]
      rw [h0, h0]
    · have hil : i < l.length := (List.getElem?_eq_some.mp hi).1
      have hjl : j < l.length := (List.getElem?_eq_some.mp hj).1
      have h0 : listSwap l i j = (l.set i b).set j a := by simp [listSwap, hi, hj]
      by_cases hij : i = j
      · subst hij
        have hab : a = b := by rw [hi] at hj; exact Option.some_inj.mp hj
        subst hab
        rw [h0, List.set_set, set_get_eq l i a hi, h0, List.set_set,
          set_get_eq l i a hi]
      · have h1 : ((l.set i b).set j a)[i]? = some b := by
          rw [List.getElem?_set_ne (fun hh => hij hh.symm)]
          exact List.getElem?_set_eq_of_lt b hil
        have h2 : ((l.set i b).set j a)[j]? = some a :=
          List.getElem?_set_eq_of_lt a (by simpa [List.length_set] using hjl)
        have h3 : listSwap ((l.set i b).set j a) i j =
            (((l.set i b).set j a).set i a).set j b := by
          simp [listSwap, h1, h2]
        rw [h0, h3, List.set_comm a a _ (Ne.symm hij)]
        simp only [List.set_set]
        rw [set_get_eq l i a hi, set_get_eq l j b hj]

/-- C7: SwapImages is an involution: whenever two successive
`swap_images(i, a, b)` calls complete (the item index is in range; positions
out of range make each call a no-op), every item's image list — in
particular item `i`'s — is back in its original order. -/
theorem swap_images_involution (s : Session) (i a b : Nat) (s1 s2 : Session)
    (h1 : swap_images s i a b = some s1) (h2 : swap_images s1 i a b = some s2) :
    ∀ j : Nat, (s2.dataset[j]?).map Item.images = (s.dataset[j]?).map Item.images := by
  intro j
  rcases hg : s.dataset[i]? with _ | item
  · simp [swap_images, hg] at h1
  · simp only [swap_images, hg] at h1
    by_cases hab : a < item.images.length ∧ b < item.images.length
    · rw [if_pos hab] at h1
      have hs1 : s1 = { s with
          dataset := s.dataset.set i { item with images := listSwap item.images a b },
          modified_items := insert i s.modified_items } :=
        (Option.some_inj.mp h1).symm
      have hil : i < s.dataset.length := (List.getElem?_eq_some.mp hg).1
      have hg1 : s1.dataset[i]? = some { item with images := listSwap item.images a b } := by
        rw [hs1]
        exact List.getElem?_set_eq_of_lt _ hil
      simp only [swap_images, hg1] at h2
      have hab1 : a < (listSwap item.images a b).length ∧
          b < (listSwap item.images a b).length := by
        rw [listSwap_length]; exact hab
      rw [if_pos hab1] at h2
      have hs2 : s2 = { s1 with
          dataset := s1.dataset.set i
            { item with images := listSwap (listSwap item.images a b) a b },
          modified_items := insert i s1.modified_items } :=
        (Option.some_inj.mp h2).symm
      rw [hs2, hs1]
      simp only [List.set_set]
      by_cases hji : j = i
      · subst hji
        rw [List.getElem?_set_eq_of_lt _ hil, hg, listSwap_involutive]
      · rw [List.getElem?_set_ne (fun h => hji h.symm)]
    · rw [if_neg hab] at h1
      have hs1 : s1 = s := (Option.some_inj.mp h1).symm
      rw [hs1] at h2
      simp only [swap_images, hg] at h2
      rw [if_neg hab] at h2
      have hs2 : s2 = s := (Option.some_inj.mp h2).symm
      rw [hs2]

/-- C7 witness: a concrete double swap on `sessionOk` (positions 0 and 1 of
its two-image item) restores item 0's image list. -/
theorem swap_images_involution_witness :
    (sessionOkSwapTwice.dataset[0]?).map Item.images =
      (sessionOk.dataset[0]?).map Item.images :=
  swap_images_involution sessionOk 0 0 1 sessionOkSwapOnce sessionOkSwapTwice
    (by decide) (by decide) 0

/-- C5: a malformed input document is fatal to the load and leaves every
session field — dataset, base path, loaded flag, cursor, modified set,
deleted set — exactly as it was (no partial load). -/
theorem load_malformed_preserves_session (s : Session) (base : String) :
    (load_dataset s .malformed base).dataset = s.dataset ∧
    (load_dataset s .malformed base).base_path = s.base_path ∧
    (load_dataset s .malformed base).data_loaded = s.data_loaded ∧
    (load_dataset s .malformed base).current_index = s.current_index ∧
    (load_dataset s .malformed base).modified_items = s.modified_items ∧
    (load_dataset s .malformed base).deleted_items = s.deleted_items :=
  ⟨rfl, rfl, rfl, rfl, rfl, rfl⟩

/-- C6: the metadata snapshot `export_dataset` writes is the entire
in-memory dataset at export time: same number of records, and record by
record (deleted and skipped items included) identical to the current,
post-edit collection. -/
theorem export_metadata_snapshot_full (s : Session) (output_dir : String)
    (fe : String → Bool) (uids : Nat → String) :
    (export_dataset s output_dir fe uids).metadataSnapshot.length = s.dataset.length ∧
    ∀ idx : Nat,
      (export_dataset s output_dir fe uids).metadataSnapshot[idx]? = s.dataset[idx]? :=
  ⟨rfl, fun _ => rfl⟩

/-- C8: MarkDeleted then UnmarkDeleted returns the index's deleted-set
membership to false and leaves the dataset — every item's image list and
metadata — untouched. -/
theorem mark_unmark_roundtrip (s : Session) (i : Nat) :
    i ∉ (undelete_listing (delete_listing s i) i).deleted_items ∧
    (undelete_listing (delete_listing s i) i).dataset = s.dataset := by
  refine ⟨?_, rfl⟩
  simp [undelete_listing, delete_listing]

/-- C9: when either rename inside `rename_card_pair` fails (the returned
flag is false), the in-memory session — the pair's grade/front/back fields,
the classified counter and the cursor — is exactly the input session: the
in-memory updates happen only after both renames succeeded. -/
theorem rename_pair_failure_preserves_session (s : ClassifySession) (i : Nat)
    (new_grade : String) (fs : Finset String)
    (h : (rename_card_pair s i new_grade fs).2.2 = false) :
    (rename_card_pair s i new_grade fs).1 = s := by
  rcases hp : s.card_pairs[i]? with _ | pair
  · simp [rename_card_pair, hp]
  · rcases h1 : rename_file fs pair.front
        (new_grade ++ "_" ++ pair.unique_id ++ "_front." ++ pair.extension) with _ | fs1
    · simp [rename_card_pair, hp, h1]
    · rcases h2 : rename_file fs1 pair.back
          (new_grade ++ "_" ++ pair.unique_id ++ "_back." ++ pair.extension) with _ | fs2
      · simp [rename_card_pair, hp, h1, h2]
      · simp [rename_card_pair, hp, h1, h2] at h

/-- C9 witness: at the concrete vanished-back-file input the rename fails
and the session is returned unchanged. -/
theorem rename_pair_failure_preserves_session_witness :
    (rename_card_pair sessionEx 0 "10m" fsEx).1 = sessionEx :=
  rename_pair_failure_preserves_session sessionEx 0 "10m" fsEx (by decide)

/-- C1: `rename_card_pair` is *not* all-or-nothing on disk.  At the concrete
input where the back file has vanished after the front rename succeeds, the
call reports failure, yet the directory listing differs from before the
call: the front file now carries the new grade and its original name is
gone, while the back file was never renamed. -/
theorem rename_pair_partial_rename_on_disk :
    (rename_card_pair sessionEx 0 "10m" fsEx).2.2 = false ∧
    "10m_ab12_front.jpg" ∈ (rename_card_pair sessionEx 0 "10m" fsEx).2.1 ∧
    "10_ab12_front.jpg" ∉ (rename_card_pair sessionEx 0 "10m" fsEx).2.1 ∧
    (rename_card_pair sessionEx 0 "10m" fsEx).2.1 ≠ fsEx := by decide

/-- The copy loop finishes without error exactly when every source file
exists. -/
theorem copy_loop_no_error_iff (base cd uid gs : String) (fe : String → Bool)
    (j : Nat) (l : List String) :
    (copy_loop base cd uid gs fe j l).2 = none ↔
      ∀ rel ∈ l, fe (get_full_image_path base rel) = true := by
  induction l generalizing j with
  | nil => simp [copy_loop]
  | cons a t ih =>
    by_cases hfe : fe (get_full_image_path base a) = true
    · simp [copy_loop, hfe, ih (j + 1)]
    · simp [copy_loop, hfe]

/-- C2 (amended): an item is exported iff it is not marked deleted, its
grade is *truthy* (present and none of Python's falsy values `0`, `0.0`,
`""`), its grading company is truthy, it has exactly 2 images, and every
source image file exists. -/
theorem export_filter_iff_truthy (s : Session) (output_dir : String)
    (fe : String → Bool) (uid : String) (idx : Nat) (item : Item)
    (hitem : s.dataset[idx]? = some item) :
    item_exported s output_dir fe uid idx item = true ↔
      (idx ∉ s.deleted_items ∧ item.grade.truthy = true ∧
       companyTruthy item.grading_company = true ∧ item.images.length = 2 ∧
       ∀ rel ∈ item.images, fe (get_full_image_path s.base_path rel) = true) := by
  clear hitem
  unfold item_exported export_step
  by_cases hdel : idx ∈ s.deleted_items
  · simp [hdel]
  · by_cases hg : item.grade.truthy = true
    · by_cases hc : companyTruthy item.grading_company = true
      · by_cases hlen : item.images.length = 2
        · have hiff := copy_loop_no_error_iff s.base_path
            (output_dir ++ "/" ++ item.grading_company.getD "") uid item.grade.pyStr
            fe 0 item.images
          rcases hcl : copy_loop s.base_path
              (output_dir ++ "/" ++ item.grading_company.getD "") uid item.grade.pyStr
              fe 0 item.images with ⟨cps, err⟩
          rw [hcl] at hiff
          cases err with
          | none =>
            simp only [hdel, hg, hc, hlen, hcl]
            simp [hdel]
            exact hiff.mp rfl
          | some msg =>
            simp only [hdel, hg, hc, hlen, hcl]
            simp [hdel, hg, hc, hlen]
            have hnall : ¬ ∀ rel ∈ item.images,
                fe (get_full_image_path s.base_path rel) = true :=
              fun hall => by simpa using hiff.mpr hall
            push_neg at hnall
            simpa [Bool.not_eq_true] using hnall
        · simp [hdel, hg, hc, hlen]
      · simp [hdel, hg, hc]
    · simp [hdel, hg]

/-- C2 witness: the fully eligible `itemOk` in a world where every source
exists instantiates the amended export-filter biconditional. -/
theorem export_filter_iff_truthy_witness :
    item_exported sessionOk "/out" allExist "u0" 0 itemOk = true ↔
      (0 ∉ sessionOk.deleted_items ∧ itemOk.grade.truthy = true ∧
       companyTruthy itemOk.grading_company = true ∧ itemOk.images.length = 2 ∧
       ∀ rel ∈ itemOk.images,
         allExist (get_full_image_path sessionOk.base_path rel) = true) :=
  export_filter_iff_truthy sessionOk "/out" allExist "u0" 0 itemOk (by decide)

/-- C2 counterexample: an item whose grade is *set* to the number `0`
(together with a set company, exactly 2 images, both sources existing, not
deleted) is nevertheless *not* exported — `not item.get('grade')` treats the
grade `0` as missing, so the claimed biconditional fails. -/
theorem export_filter_grade_zero_cex :
    itemGradeZero.grade ≠ PyVal.vNone ∧
    (0 ∉ sessionGradeZero.deleted_items ∧
     itemGradeZero.grading_company ≠ none ∧
     itemGradeZero.images.length = 2 ∧
     ∀ rel ∈ itemGradeZero.images,
       allExist (get_full_image_path sessionGradeZero.base_path rel) = true) ∧
    item_exported sessionGradeZero "/out" allExist "u0" 0 itemGradeZero = false := by
  decide

/-- Under the three leading filters the per-item step creates exactly the
item's company directory — before any source-existence check. -/
theorem export_step_dirs_eq (s : Session) (output_dir : String) (fe : String → Bool)
    (uid : String) (idx : Nat) (item : Item)
    (hdel : idx ∉ s.deleted_items) (hg : item.grade.truthy = true)
    (hc : companyTruthy item.grading_company = true) (hlen : item.images.length = 2) :
    (export_step s output_dir fe uid idx item).dirs =
      [output_dir ++ "/" ++ item.grading_company.getD ""] := by
  unfold export_step
  rcases hcl : copy_loop s.base_path
      (output_dir ++ "/" ++ item.grading_company.getD "") uid item.grade.pyStr
      fe 0 item.images with ⟨cps, err⟩
  cases err <;> simp [hdel, hg, hc, hlen, hcl]

/-- Each processed item's created directories end up in the export loop's
accumulated directory list. -/
theorem export_loop_dirs_mem (s : Session) (od : String) (fe : String → Bool)
    (uids : Nat → String) :
    ∀ (l : List Item) (start k : Nat) (item : Item), l[k]? = some item →
      ∀ d ∈ (export_step s od fe (uids (start + k)) (start + k) item).dirs,
        d ∈ (export_loop s od fe uids start l).2.2.2.1 := by
  intro l
  induction l with
  | nil => intro start k item hk; simp at hk
  | cons a t ih =>
    intro start k item hk d hd
    cases k with
    | zero =>
      simp only [List.getElem?_cons_zero, Option.some_inj] at hk
      subst hk
      simp only [Nat.add_zero] at hd
      simp [export_loop, List.mem_append]
      exact Or.inl hd
    | succ k2 =>
      have hk2 : t[k2]? = some item := by simpa using hk
      have harith : start + (k2 + 1) = start + 1 + k2 := by omega
      rw [harith] at hd
      have hmem := ih (start + 1) k2 item hk2 d hd
      simp [export_loop, List.mem_append]
      exact Or.inr hmem

/-- C10: every item that passes the deletion, grade/company and image-count
filters gets its grading-company subdirectory created inside the output
directory, for *every* world `fe` — in particular when its source files are
missing and the item is then skipped, the (possibly empty) company directory
is still left behind. -/
theorem export_creates_company_dir (s : Session) (output_dir : String)
    (fe : String → Bool) (uids : Nat → String) (idx : Nat) (item : Item)
    (hitem : s.dataset[idx]? = some item) (hdel : idx ∉ s.deleted_items)
    (hg : item.grade.truthy = true) (hc : companyTruthy item.grading_company = true)
    (hlen : item.images.length = 2) :
    output_dir ++ "/" ++ item.grading_company.getD "" ∈
      (export_dataset s output_dir fe uids).createdDirs := by
  have hdirs := export_step_dirs_eq s output_dir fe (uids idx) idx item hdel hg hc hlen
  have hmem := export_loop_dirs_mem s output_dir fe uids s.dataset 0 idx item
    hitem (output_dir ++ "/" ++ item.grading_company.getD "")
  rw [Nat.zero_add, hdirs] at hmem
  have h2 := hmem (List.mem_singleton.mpr rfl)
  simp [export_dataset]
  exact Or.inr h2

/-- C10 witness: the eligible `itemOk` in a world where *no* source file
exists still gets `/out/PSA` created. -/
theorem export_creates_company_dir_witness :
    "/out" ++ "/" ++ itemOk.grading_company.getD "" ∈
      (export_dataset sessionOk "/out" noneExist uidsEx).createdDirs :=
  export_creates_company_dir sessionOk "/out" noneExist uidsEx 0 itemOk
    (by decide) (by decide) (by decide) (by decide) (by decide)

/-- `takeWhile`/`dropWhile` on a run of satisfying characters followed by a
stopper: the run is taken whole and the rest left. -/
theorem takeWhile_append_not (p : Char → Bool) (l1 : List Char) (c : Char)
    (l2 : List Char) (h1 : ∀ a ∈ l1, p a = true) (hc : p c = false) :
    (l1 ++ c :: l2).takeWhile p = l1 ∧ (l1 ++ c :: l2).dropWhile p = c :: l2 := by
  induction l1 with
  | nil => simp [List.takeWhile_cons, List.dropWhile_cons, hc]
  | cons a t ih =>
    have ha : p a = true := h1 a (by simp)
    have iht := ih fun x hx => h1 x (by simp [hx])
    simp [List.takeWhile_cons, List.dropWhile_cons, ha, iht.1, iht.2]

/-- `sideTok` on a case-variant of `front` followed by anything. -/
theorem sideTok_append_front (sd r : List Char)
    (h : sd.map Char.toLower = ['f', 'r', 'o', 'n', 't']) :
    sideTok (sd ++ r) = some ("front", r) := by
  have hlen : sd.length = 5 := by
    have := congrArg List.length h
    simpa using this
  unfold sideTok
  rw [← hlen, List.take_left, List.drop_left, h]
  simp

/-- `sideTok` on a case-variant of `back` followed by a dot and more: the
`front` test fails (the fifth character is the dot), the `back` test
succeeds. -/
theorem sideTok_append_back (sd e : List Char)
    (h : sd.map Char.toLower = ['b', 'a', 'c', 'k']) :
    sideTok (sd ++ '.' :: e) = some ("back", '.' :: e) := by
  have hlen : sd.length = 4 := by
    have := congrArg List.length h
    simpa using this
  have h5 : (sd ++ '.' :: e).take 5 = sd ++ ['.'] := by
    have h51 : (5 : Nat) = sd.length + 1 := by omega
    rw [h51, List.take_append]
    simp
  have hfront : ¬ ((sd ++ '.' :: e).take 5).map Char.toLower = ['f', 'r', 'o', 'n', 't'] := by
    rw [h5, List.map_append, h]
    intro hcon
    exact absurd hcon (by decide)
  unfold sideTok
  rw [if_neg hfront, ← hlen, List.take_left, List.drop_left, h]
  simp

/-- A successful `sideTok` splits its input into a case-variant of
`front`/`back` and the rest. -/
theorem sideTok_eq_some (cs : List Char) (sdStr : String) (r : List Char)
    (h : sideTok cs = some (sdStr, r)) :
    ∃ sd : List Char, cs = sd ++ r ∧
      (sd.map Char.toLower = ['f', 'r', 'o', 'n', 't'] ∨
        sd.map Char.toLower = ['b', 'a', 'c', 'k']) := by
  unfold sideTok at h
  split_ifs at h with h1 h2
  · refine ⟨cs.take 5, ?_, Or.inl h1⟩
    have hr : r = cs.drop 5 := by
      have := (Prod.mk.injEq _ _ _ _).mp (Option.some_inj.mp h)
      exact this.2.symm
    rw [hr, List.take_append_drop]
  · refine ⟨cs.take 4, ?_, Or.inr h2⟩
    have hr : r = cs.drop 4 := by
      have := (Prod.mk.injEq _ _ _ _).mp (Option.some_inj.mp h)
      exact this.2.symm
    rw [hr, List.take_append_drop]

/-- The deterministic matcher accepts exactly the decomposable inputs: the
soundness/completeness of `parseChars` against the regex's language. -/
theorem parseChars_isSome_iff (cs : List Char) :
    (parseChars cs).isSome = true ↔
      ∃ g u sd e : List Char,
        cs = g ++ '_' :: (u ++ '_' :: (sd ++ '.' :: e)) ∧
        g ≠ [] ∧ (∀ c ∈ g, isDigitOrDot c = true) ∧
        u ≠ [] ∧ (∀ c ∈ u, isHexCI c = true) ∧
        (sd.map Char.toLower = ['f', 'r', 'o', 'n', 't'] ∨
          sd.map Char.toLower = ['b', 'a', 'c', 'k']) ∧
        e ≠ [] ∧ (∀ c ∈ e, isWordChar c = true) := by
  constructor
  · intro h
    unfold parseChars at h
    split at h
    · rename_i r1 heq1
      split at h
      · rename_i r2 heq2
        split at h
        · rename_i sd0 r3 heq3
          split at h
          · rename_i e
            split at h
            · rename_i hwf
              by_cases hgne : cs.takeWhile isDigitOrDot = []
              · simp [hgne] at h
              · by_cases hune : r1.takeWhile isHexCI = []
                · simp [hgne, hune] at h
                · obtain ⟨sd, hr2, hside⟩ := sideTok_eq_some r2 sd0 ('.' :: e) heq3
                  refine ⟨cs.takeWhile isDigitOrDot, r1.takeWhile isHexCI, sd, e,
                    ?_, hgne, ?_, hune, ?_, hside, hwf.1,
                    List.all_eq_true.mp hwf.2⟩
                  · conv_lhs => rw [← List.takeWhile_append_dropWhile isDigitOrDot cs]
                    rw [heq1]
                    congr 1
                    conv_lhs => rw [← List.takeWhile_append_dropWhile isHexCI r1]
                    rw [heq2]
                    congr 2
                    rw [hr2]
                  · exact fun c hc => List.mem_takeWhile_imp hc
                  · exact fun c hc => List.mem_takeWhile_imp hc
            · simp at h
          · simp at h
        · simp at h
      · simp at h
    · simp at h
  · rintro ⟨g, u, sd, e, hcs, hg, hgall, hu, huall, hside, he, heall⟩
    subst hcs
    have h1 := takeWhile_append_not isDigitOrDot g '_'
      (u ++ '_' :: (sd ++ '.' :: e)) hgall (by decide)
    have h2 := takeWhile_append_not isHexCI u '_' (sd ++ '.' :: e) huall (by decide)
    have heall2 : e.all isWordChar = true := List.all_eq_true.mpr heall
    rcases hside with hf | hb
    · simp [parseChars, h1.1, h1.2, h2.1, h2.2, sideTok_append_front sd ('.' :: e) hf,
        hg, hu, he, heall2]
    · simp [parseChars, h1.1, h1.2, h2.1, h2.2, sideTok_append_back sd e hb,
        hg, hu, he, heall2]

/-- C4 (amended): `parse_filename` accepts exactly the relaxed grammar the
regex (with IGNORECASE) encodes: a nonempty run of digits *and dots* (dots
unrestricted), `_`, a nonempty run of hex characters *of either case*, `_`,
`front`/`back` case-insensitively, `.`, and a nonempty run of word
characters. -/
theorem parse_filename_iff_regex_language (filename : String) :
    (parse_filename filename).isSome = true ↔ regexLang filename := by
  have hcore := parseChars_isSome_iff filename.toList
  have hw : (parse_filename filename).isSome = (parseChars filename.toList).isSome := by
    rcases hp : parseChars filename.toList with _ | ⟨g, u, sd, e⟩
    · have hp2 : parseChars filename.data = none := hp
      simp [parse_filename, hp, hp2]
    · have hp2 : parseChars filename.data = some (g, u, sd, e) := hp
      simp [parse_filename, hp, hp2]
  rw [hw, hcore]
  exact Iff.rfl

/-- C4 counterexample: the filename `1..2_ABC_front.jpg` — a grade with two
dots and an uppercase-hex unique id — is outside the spec grammar, yet
`parse_filename` parses it successfully, so the claimed biconditional
fails. -/
theorem parse_filename_spec_grammar_cex :
    parse_filename "1..2_ABC_front.jpg" = some ("1..2", "ABC", "front", "jpg") ∧
    (parse_filename "1..2_ABC_front.jpg").isSome = true ∧
    specMatch "1..2_ABC_front.jpg" = false := by decide

/-- `setSide` never changes the grade, unique-id or extension slots. -/
theorem setSide_fields (ent : Entry) (sd name : String) :
    (setSide ent sd name).grade = ent.grade ∧
    (setSide ent sd name).unique_id = ent.unique_id ∧
    (setSide ent sd name).extension = ent.extension := by
  unfold setSide
  split_ifs <;> simp

/-- Looking up a key absent from the first list passes to the second. -/
theorem dlookup_append_of_none (d1 d2 : List (String × Entry)) (key : String)
    (h : dlookup d1 key = none) : dlookup (d1 ++ d2) key = dlookup d2 key := by
  induction d1 with
  | nil => simp
  | cons kv rest ih =>
    rcases kv with ⟨k, v⟩
    by_cases hk : k = key
    · simp [dlookup, hk] at h
    · simp only [List.cons_append, dlookup, if_neg hk] at h ⊢
      exact ih h

/-- Looking up a key present in the first list ignores the second. -/
theorem dlookup_append_of_some (d1 d2 : List (String × Entry)) (key : String)
    (ent : Entry) (h : dlookup d1 key = some ent) :
    dlookup (d1 ++ d2) key = some ent := by
  induction d1 with
  | nil => simp [dlookup] at h
  | cons kv rest ih =>
    rcases kv with ⟨k, v⟩
    by_cases hk : k = key
    · simp only [dlookup, if_pos hk] at h
      simp only [List.cons_append, dlookup, if_pos hk]
      exact h
    · simp only [dlookup, if_neg hk] at h
      simp only [List.cons_append, dlookup, if_neg hk]
      exact ih h

/-- Updating a key leaves other keys' lookups unchanged. -/
theorem dlookup_dupdate_ne (d : List (String × Entry)) (key key2 : String)
    (e : Entry) (h : key2 ≠ key) :
    dlookup (dupdate d key e) key2 = dlookup d key2 := by
  induction d with
  | nil => simp [dupdate]
  | cons kv rest ih =>
    rcases kv with ⟨k, v⟩
    by_cases hk : k = key
    · subst hk
      have hk2 : ¬ (k = key2) := fun hh => h hh.symm
      simp [dupdate, dlookup, hk2]
    · simp only [dupdate, if_neg hk]
      by_cases hk2 : k = key2
      · simp [dlookup, hk2]
      · simp [dlookup, hk2, ih]

/-- Updating a present key overwrites exactly its value. -/
theorem dlookup_dupdate_self (d : List (String × Entry)) (key : String)
    (e ent : Entry) (h : dlookup d key = some ent) :
    dlookup (dupdate d key e) key = some e := by
  induction d with
  | nil => simp [dlookup] at h
  | cons kv rest ih =>
    rcases kv with ⟨k, v⟩
    by_cases hk : k = key
    · subst hk
      simp [dupdate, dlookup]
    · simp only [dlookup, if_neg hk] at h
      simp [dupdate, hk, dlookup, ih h]

/-- A key has no entry exactly when it is not among the keys. -/
theorem dlookup_none_iff (d : List (String × Entry)) (key : String) :
    dlookup d key = none ↔ key ∉ d.map Prod.fst := by
  induction d with
  | nil => simp [dlookup]
  | cons kv rest ih =>
    rcases kv with ⟨k, v⟩
    by_cases hk : k = key
    · subst hk
      simp [dlookup]
    · have hk2 : ¬ (key = k) := fun hh => hk hh.symm
      simp [dlookup, hk, hk2, ih]

/-- `dupdate` does not change the key list. -/
theorem dupdate_keys (d : List (String × Entry)) (key : String) (e : Entry) :
    (dupdate d key e).map Prod.fst = d.map Prod.fst := by
  induction d with
  | nil => simp [dupdate]
  | cons kv rest ih =>
    rcases kv with ⟨k, v⟩
    by_cases hk : k = key <;> simp [dupdate, hk, ih]

/-- With distinct keys, membership determines the lookup. -/
theorem mem_dlookup (d : List (String × Entry)) (k : String) (ent : Entry)
    (hnd : (d.map Prod.fst).Nodup) (hm : (k, ent) ∈ d) :
    dlookup d k = some ent := by
  induction d with
  | nil => simp at hm
  | cons kv rest ih =>
    rcases kv with ⟨k0, v0⟩
    rcases List.mem_cons.mp hm with heq | hmem
    · cases heq
      simp [dlookup]
    · have hk : ¬ (k0 = k) := by
        intro hh
        subst hh
        have : k0 ∈ rest.map Prod.fst := List.mem_map.mpr ⟨(k0, ent), hmem, rfl⟩
        exact (List.nodup_cons.mp hnd).1 this
      simp only [dlookup, if_neg hk]
      exact ih (List.nodup_cons.mp hnd).2 hmem

/-- `insertFile` leaves lookups of other unique ids unchanged. -/
theorem dlookup_insertFile_ne (d : List (String × Entry)) (f key : String)
    (h : ∀ g u sd e, acceptFile f = some (g, u, sd, e) → u ≠ key) :
    dlookup (insertFile d f) key = dlookup d key := by
  rcases ha : acceptFile f with _ | ⟨g, u, sd, e⟩
  · simp [insertFile, ha]
  · have hu : u ≠ key := h g u sd e ha
    rcases hl : dlookup d u with _ | ent
    · have hins : insertFile d f = d ++ [(u, setSide ⟨g, u, e, none, none⟩ sd f)] := by
        simp [insertFile, ha, hl]
      rw [hins]
      rcases hk : dlookup d key with _ | ent2
      · rw [dlookup_append_of_none d _ key hk]
        simp [dlookup, hu]
      · exact dlookup_append_of_some d _ key ent2 hk
    · have hins : insertFile d f = dupdate d u (setSide ent sd f) := by
        simp [insertFile, ha, hl]
      rw [hins]
      exact dlookup_dupdate_ne d u key _ (Ne.symm hu)

/-- `insertFile` keeps the keys distinct. -/
theorem insertFile_keys_nodup (d : List (String × Entry)) (f : String)
    (h : (d.map Prod.fst).Nodup) : ((insertFile d f).map Prod.fst).Nodup := by
  rcases ha : acceptFile f with _ | ⟨g, u, sd, e⟩
  · simpa [insertFile, ha] using h
  · rcases hl : dlookup d u with _ | ent
    · have hnot : u ∉ d.map Prod.fst := (dlookup_none_iff d u).mp hl
      have hkeys : (insertFile d f).map Prod.fst = d.map Prod.fst ++ [u] := by
        simp [insertFile, ha, hl]
      rw [hkeys]
      simp [List.nodup_append, h, hnot]
    · have hkeys : (insertFile d f).map Prod.fst = d.map Prod.fst := by
        simp [insertFile, ha, hl, dupdate_keys]
      rw [hkeys]
      exact h

/-- The scan's dictionary always has distinct unique-id keys. -/
theorem foldl_insertFile_keys_nodup (files : List String) :
    ∀ d : List (String × Entry), (d.map Prod.fst).Nodup →
      ((files.foldl insertFile d).map Prod.fst).Nodup := by
  induction files with
  | nil => intro d h; simpa using h
  | cons f rest ih => intro d h; exact ih _ (insertFile_keys_nodup d f h)

/-- The grade, unique id and extension of an entry already in the dictionary
survive the remaining scan: later files with the same unique id only update
side slots. -/
theorem foldl_insertFile_preserves (files : List String) :
    ∀ (d : List (String × Entry)) (uid : String) (ent : Entry),
      dlookup d uid = some ent →
      ∃ ent2 : Entry, dlookup (files.foldl insertFile d) uid = some ent2 ∧
        ent2.grade = ent.grade ∧ ent2.unique_id = ent.unique_id ∧
        ent2.extension = ent.extension := by
  induction files with
  | nil => intro d uid ent h; exact ⟨ent, by simpa using h, rfl, rfl, rfl⟩
  | cons f rest ih =>
    intro d uid ent h
    rw [List.foldl_cons]
    rcases ha : acceptFile f with _ | ⟨g, u, sd, e⟩
    · have hid : insertFile d f = d := by simp [insertFile, ha]
      rw [hid]
      exact ih d uid ent h
    · by_cases hu : u = uid
      · subst hu
        have hins : insertFile d f = dupdate d u (setSide ent sd f) := by
          simp [insertFile, ha, h]
        rw [hins]
        have hlk : dlookup (dupdate d u (setSide ent sd f)) u = some (setSide ent sd f) :=
          dlookup_dupdate_self d u _ ent h
        obtain ⟨ent2, h2, hg2, hu2, he2⟩ := ih _ u (setSide ent sd f) hlk
        obtain ⟨hsg, hsu, hse⟩ := setSide_fields ent sd f
        exact ⟨ent2, h2, by rw [hg2, hsg], by rw [hu2, hsu], by rw [he2, hse]⟩
      · have hlk : dlookup (insertFile d f) uid = dlookup d uid :=
          dlookup_insertFile_ne d f uid (by
            intro g2 u2 sd2 e2 hacc
            rw [ha] at hacc
            simp at hacc
            obtain ⟨_, h2', _, _⟩ := hacc
            rw [← h2']
            exact hu)
        exact ih (insertFile d f) uid ent (by rw [hlk]; exact h)

/-- An entry created during the scan carries the grade, unique id and
extension of the *first* accepted file with its unique id. -/
theorem foldl_insertFile_creates (files : List String) :
    ∀ (d : List (String × Entry)) (uid : String) (ent : Entry),
      dlookup d uid = none →
      dlookup (files.foldl insertFile d) uid = some ent →
      ∃ g sd e, firstAccepted files uid = some (g, uid, sd, e) ∧
        ent.grade = g ∧ ent.unique_id = uid ∧ ent.extension = e := by
  induction files with
  | nil =>
    intro d uid ent h0 h1
    rw [List.foldl_nil, h0] at h1
    exact absurd h1 (by simp)
  | cons f rest ih =>
    intro d uid ent h0 h1
    rw [List.foldl_cons] at h1
    rcases ha : acceptFile f with _ | ⟨g, u, sd, e⟩
    · have hid : insertFile d f = d := by simp [insertFile, ha]
      rw [hid] at h1
      obtain ⟨g2, sd2, e2, hfa, hx⟩ := ih d uid ent h0 h1
      exact ⟨g2, sd2, e2, by simpa [firstAccepted, ha] using hfa, hx⟩
    · by_cases hu : u = uid
      · subst hu
        have hins : insertFile d f = d ++ [(u, setSide ⟨g, u, e, none, none⟩ sd f)] := by
          simp [insertFile, ha, h0]
        rw [hins] at h1
        have hlk : dlookup (d ++ [(u, setSide ⟨g, u, e, none, none⟩ sd f)]) u
            = some (setSide ⟨g, u, e, none, none⟩ sd f) := by
          rw [dlookup_append_of_none d _ u h0]
          simp [dlookup]
        obtain ⟨ent2, h2, hg2, hu2, he2⟩ := foldl_insertFile_preserves rest _ u _ hlk
        have hent : ent = ent2 := by
          rw [h1] at h2
          exact Option.some_inj.mp h2
        obtain ⟨hsg, hsu, hse⟩ := setSide_fields ⟨g, u, e, none, none⟩ sd f
        refine ⟨g, sd, e, ?_, ?_, ?_, ?_⟩
        · simp [firstAccepted, ha]
        · rw [hent, hg2, hsg]
        · rw [hent, hu2, hsu]
        · rw [hent, he2, hse]
      · have hlk : dlookup (insertFile d f) uid = dlookup d uid :=
          dlookup_insertFile_ne d f uid (by
            intro g2 u2 sd2 e2 hacc
            rw [ha] at hacc
            simp at hacc
            obtain ⟨_, h2', _, _⟩ := hacc
            rw [← h2']
            exact hu)
        obtain ⟨g2, sd2, e2, hfa, hx⟩ :=
          ih (insertFile d f) uid ent (by rw [hlk]; exact h0) h1
        refine ⟨g2, sd2, e2, ?_, hx⟩
        simpa [firstAccepted, ha, hu] using hfa

/-- Every retained pair comes from a dictionary entry with both sides set,
sharing its grade, unique id and extension. -/
theorem mem_collectPairs (d : List (String × Entry)) (pair : CardPair)
    (h : pair ∈ collectPairs d) :
    ∃ kv ∈ d, kv.2.front = some pair.front ∧ kv.2.back = some pair.back ∧
      pair.grade = kv.2.grade ∧ pair.unique_id = kv.2.unique_id ∧
      pair.extension = kv.2.extension := by
  induction d with
  | nil => simp [collectPairs] at h
  | cons kv0 rest ih =>
    rcases kv0 with ⟨k0, ent0⟩
    rcases hf : ent0.front with _ | f0
    · have hcc : collectPairs ((k0, ent0) :: rest) = collectPairs rest := by
        simp [collectPairs, hf]
      rw [hcc] at h
      obtain ⟨kv, hkv, hrest⟩ := ih h
      exact ⟨kv, List.mem_cons_of_mem _ hkv, hrest⟩
    · rcases hb : ent0.back with _ | b0
      · have hcc : collectPairs ((k0, ent0) :: rest) = collectPairs rest := by
          simp [collectPairs, hf, hb]
        rw [hcc] at h
        obtain ⟨kv, hkv, hrest⟩ := ih h
        exact ⟨kv, List.mem_cons_of_mem _ hkv, hrest⟩
      · have hcc : collectPairs ((k0, ent0) :: rest) =
            ⟨ent0.grade, ent0.unique_id, ent0.extension, f0, b0⟩ :: collectPairs rest := by
          simp [collectPairs, hf, hb]
        rw [hcc] at h
        rcases List.mem_cons.mp h with heq | hmem
        · subst heq
          exact ⟨(k0, ent0), List.mem_cons_self _ _, hf, hb, rfl, rfl, rfl⟩
        · obtain ⟨kv, hkv, hrest⟩ := ih hmem
          exact ⟨kv, List.mem_cons_of_mem _ hkv, hrest⟩

/-- Stable insertion keeps exactly the members. -/
theorem mem_insertSorted (p q : CardPair) (l : List CardPair) :
    p ∈ insertSorted q l ↔ p = q ∨ p ∈ l := by
  induction l with
  | nil => simp [insertSorted]
  | cons a t ih =>
    unfold insertSorted
    split_ifs with hle
    · simp [List.mem_cons]
    · simp only [List.mem_cons, ih]
      tauto

/-- Sorting keeps exactly the members. -/
theorem mem_sortPairs (p : CardPair) (l : List CardPair) :
    p ∈ sortPairs l ↔ p ∈ l := by
  induction l with
  | nil => simp [sortPairs]
  | cons a t ih => simp [sortPairs, mem_insertSorted, ih]

/-- C3 (amended): for every CardPair the scan builds, the extension (and
grade) recorded in the shared slot are those of whichever side was scanned
*first* — the entry is created at the first accepted file with that unique
id and later files only fill side slots, never the extension. -/
theorem pair_extension_first_seen (files : List String) (pair : CardPair)
    (h : pair ∈ load_image_directory files) :
    ∃ g sd e, firstAccepted files pair.unique_id = some (g, pair.unique_id, sd, e) ∧
      pair.grade = g ∧ pair.extension = e := by
  unfold load_image_directory at h
  rw [mem_sortPairs] at h
  obtain ⟨kv, hkv, hf, hb, hgr, hid, hext⟩ := mem_collectPairs _ _ h
  have hnd : ((files.foldl insertFile []).map Prod.fst).Nodup :=
    foldl_insertFile_keys_nodup files [] (by simp)
  have hlk : dlookup (files.foldl insertFile []) kv.1 = some kv.2 :=
    mem_dlookup _ kv.1 kv.2 hnd (by simpa using hkv)
  obtain ⟨g, sd, e, hfa, hg2, hu2, he2⟩ :=
    foldl_insertFile_creates files [] kv.1 kv.2 (by simp [dlookup]) hlk
  refine ⟨g, sd, e, ?_, ?_, ?_⟩
  · rw [hid, hu2]
    exact hfa
  · rw [hgr, hg2]
  · rw [hext, he2]

/-- C3 witness: on a scan whose front is a `.jpg` (seen first) and back a
`.png` (seen last), the built pair's slot holds the first-seen data. -/
theorem pair_extension_first_seen_witness :
    ∃ g sd e, firstAccepted filesMixedExt pairMixedExt.unique_id =
        some (g, pairMixedExt.unique_id, sd, e) ∧
      pairMixedExt.grade = g ∧ pairMixedExt.extension = e :=
  pair_extension_first_seen filesMixedExt pairMixedExt (by decide)

/-- C3 counterexample: scanning `10_ab_front.jpg` then `10_ab_back.png`
yields one pair whose recorded extension is `jpg` — the *first*-seen side's —
not the `png` of the back file scanned last, refuting the claim that the
later-seen file's extension overwrites the slot. -/
theorem pair_extension_last_seen_cex :
    (load_image_directory filesMixedExt).map CardPair.extension = ["jpg"] ∧
    (load_image_directory filesMixedExt).map CardPair.back = ["10_ab_back.png"] ∧
    parse_filename "10_ab_back.png" = some ("10", "ab", "back", "png") ∧
    "jpg" ≠ "png" := by decide

end CardManager
